import Mathlib

/-!
Verification of the single-domain web crawler (`crawler.go`, `crawler_test.go`).

The crawler's scheduler (`crawlDomain`) is embedded as an explicit state
machine: the delivery channel `pages` becomes a multiset of pending link
lists (kept as a `List`, with an arbitrary scheduling function choosing
which pending delivery the scheduler receives next, so every interleaving
of worker deliveries is covered), the loop counter `n` is carried
explicitly, and ghost counters record how many link lists were received
and how many workers were spawned.  Workers are pure: a worker for `link`
computes `getLinks table link`, stores it in the sitemap and delivers it;
since that value is deterministic, the model performs the sitemap write
and enqueues the future delivery at spawn time.  The external `Fetcher`
is presented as a finite association table (exactly the shape of
`testFetcher` in `crawler_test.go`); a URL absent from the table is a
failing fetch, which `getLinks` absorbs into an empty link list.
-/

namespace Crawler

/-! ## Domain/Image filters (`crawler.go` lines 176-193) -/

/-- The characters matched by `\s` in Go's `regexp` package
(Perl character class `[\t\n\f\r ]`). -/
def goSpace (c : Char) : Bool :=
  c = '\t' || c = '\n' || c = Char.ofNat 12 || c = '\r' || c = ' '

/-- The image extensions of the regular expression in `isImageLink`
(`jpg|png|gif|bmp|tiff`), as lower-case character lists. -/
def imageExts : List (List Char) :=
  [['j', 'p', 'g'], ['p', 'n', 'g'], ['g', 'i', 'f'], ['b', 'm', 'p'],
   ['t', 'i', 'f', 'f']]

/-- Matcher for one alternative of the regular expression
`([^\s]+(\.(?i)(jpg|png|gif|bmp|tiff))$)`, working on the reversed URL:
`matchExtRev er rs` holds when `rs` starts with the reversed extension `er`
(case-insensitively, which is what `(?i)` does to the ASCII letters of the
extensions), followed by the literal dot, followed by at least one
character that is not `\s` (the mandatory `[^\s]+` before the dot; one
such character suffices because `MatchString` searches anywhere). -/
def matchExtRev : List Char → List Char → Bool
  | [], d :: c :: _ => d == '.' && !goSpace c
  | [], _ => false
  | e :: es, r :: rs => r.toLower == e && matchExtRev es rs
  | _ :: _, [] => false

/-- `isImageLink` from `crawler.go` lines 178-184: the URL matches the
regular expression `([^\s]+(\.(?i)(jpg|png|gif|bmp|tiff))$)`. -/
def isImageLink (url : String) : Bool :=
  imageExts.any fun ext => matchExtRev ext.reverse url.data.reverse

/-- `strings.HasPrefix` on character sequences (for UTF-8 strings the
byte-prefix test of `strings.HasPrefix` and the character-prefix test
agree). -/
def hasPrefixAux : List Char → List Char → Bool
  | [], _ => true
  | _ :: _, [] => false
  | p :: ps, s :: ss => p == s && hasPrefixAux ps ss

/-- `isSameDomain` from `crawler.go` lines 188-193:
`strings.HasPrefix(url, domain)`, wrapped in the source's
`if ... return true ... return false` shape. -/
def isSameDomain (domain url : String) : Bool :=
  if hasPrefixAux domain.data url.data then true else false

/-- The property C6 claims for `isImageLink`, as stated: the URL ends,
case-insensitively, in one of the image extensions (preceded by the
extension's dot). -/
def EndsInImageExt (url : String) : Prop :=
  ∃ ext ∈ imageExts, ∃ pre suf,
    url.data = pre ++ '.' :: suf ∧ suf.map Char.toLower = ext

/-- What `isImageLink` actually decides: the URL ends, case-insensitively,
in a dot plus one of the image extensions, and the dot is immediately
preceded by at least one character that is not `\s`-whitespace. -/
def EndsInImageExtAmended (url : String) : Prop :=
  ∃ ext ∈ imageExts, ∃ pre c suf,
    url.data = pre ++ c :: '.' :: suf ∧ suf.map Char.toLower = ext ∧
    goSpace c = false

/-! ## Fetcher and fetch adapter (`crawler.go` lines 161-174) -/

/-- The `Fetcher` capability presented as a finite link graph: an
association table from URL to link list, exactly the shape of
`testFetcher` in `crawler_test.go`.  `Get` succeeds with the table entry
and fails (returns an error) when the URL has no entry. -/
def fetcherGet (table : List (String × List String)) (url : String) :
    Option (List String) :=
  table.lookup url

/-- `getLinks` from `crawler.go` lines 165-174: calls the fetcher and, on
error, logs and returns an empty (nil) link list.  The concurrency
limiter it acquires and releases does not affect the returned value; it
is modelled separately below. -/
def getLinks (table : List (String × List String)) (url : String) :
    List String :=
  match fetcherGet table url with
  | some links => links
  | none => []

/-! ## The crawl scheduler (`crawler.go` lines 122-159) -/

/-- The scheduler state of `crawlDomain`.  `pending` holds the link lists
that have been (or, equivalently for the final result, will be) delivered
on the `pages` channel but not yet received; `n` is the loop counter;
`received` and `spawned` are ghost counters of receives and of spawned
workers. -/
structure CrawlState where
  visited : List String
  sitemap : List (String × List String)
  pending : List (List String)
  n : Nat
  received : Nat
  spawned : Nat
deriving Repr, DecidableEq

/-- The eligibility test of `crawler.go` line 144:
`!visited[link] && !isImageLink(link) && isSameDomain(url, link)`. -/
def eligible (root : String) (visited : List String) (link : String) : Bool :=
  !(decide (link ∈ visited)) && !(isImageLink link) && isSameDomain root link

/-- Lines 144-156: handle one link of a received list.  An eligible link
is marked visited, the counter is incremented and a worker is spawned for
it; the worker's effect (storing `getLinks link` in the sitemap and
delivering that list on the channel) is recorded at spawn time, which is
sound because the delivered value is deterministic. -/
def processLink (root : String) (table : List (String × List String))
    (s : CrawlState) (link : String) : CrawlState :=
  if eligible root s.visited link then
    { s with
      visited := link :: s.visited
      sitemap := (link, getLinks table link) :: s.sitemap
      pending := s.pending ++ [getLinks table link]
      n := s.n + 1
      spawned := s.spawned + 1 }
  else s

/-- Lines 143-157: the inner `for _, link := range links` loop. -/
def processLinks (root : String) (table : List (String × List String))
    (s : CrawlState) (links : List String) : CrawlState :=
  links.foldl (processLink root table) s

/-- The `n--` of the loop header, performed after the body. -/
def finishIteration (s : CrawlState) : CrawlState :=
  { s with n := s.n - 1 }

/-- One iteration of the scheduling loop (lines 141-158): receive one
pending link list — the scheduling function `sched` picks which delivery
arrives first, so all channel orders are covered — process its links, and
decrement `n`. -/
def receiveProcess (root : String) (table : List (String × List String))
    (sched : CrawlState → Nat) (st : CrawlState) : CrawlState :=
  finishIteration (processLinks root table
    { st with
      pending := st.pending.eraseIdx (sched st % st.pending.length)
      received := st.received + 1 }
    (st.pending.getD (sched st % st.pending.length) []))

/-- The scheduling loop `for ; n > 0; n--`, with explicit fuel.  `none`
means the loop has not finished within `fuel` iterations (or, with
`pending` empty while `n > 0`, would block forever on the receive). -/
def crawlLoopAux (root : String) (table : List (String × List String))
    (sched : CrawlState → Nat) : Nat → CrawlState → Option CrawlState
  | 0, st => if st.n = 0 then some st else none
  | fuel + 1, st =>
    if st.n = 0 then some st
    else if st.pending.isEmpty then none
    else crawlLoopAux root table sched fuel (receiveProcess root table sched st)

/-- Lines 124-137: the initial scheduler state.  `n = 1` and the seed URL
is delivered as a one-element link list. -/
def initState (root : String) : CrawlState :=
  { visited := []
    sitemap := []
    pending := [[root]]
    n := 1
    received := 0
    spawned := 0 }

/-- `crawlDomain` from `crawler.go` lines 122-159, over the finite fetch
table, a scheduling function and a fuel bound. -/
def crawlDomain (root : String) (table : List (String × List String))
    (sched : CrawlState → Nat) (fuel : Nat) : Option CrawlState :=
  crawlLoopAux root table sched fuel (initState root)

/-- Every URL the crawl can ever see: the seed plus every link occurring
in the fetch table. -/
def urlUniverse (root : String) (table : List (String × List String)) :
    List String :=
  root :: (table.map Prod.snd).flatten

/-- Fuel sufficient for any crawl of the given graph (proved below). -/
def fuelBound (root : String) (table : List (String × List String)) : Nat :=
  (urlUniverse root table).length + 1

/-! ## The fixture graph of `crawler_test.go` (lines 19-38) -/

/-- `tester` from `crawler_test.go`. -/
def testTable : List (String × List String) :=
  [("http://golang.org",
    ["http://golang.org/test.html",
     "http://golang.org/test2.html",
     "http://golang.org/images/gopher.jpg",
     "http://goweeklynews.com"]),
   ("http://golang.org/test.html",
    ["http://golang.org/testing.html",
     "http://golang.org/images/gopher.jpg",
     "http://linkedin.com/golang"]),
   ("http://golang.org/test2.html",
    ["http://golang.org"]),
   ("http://golang.org/testing.html",
    ["http://golang.org"])]

/-- A first-in-first-out schedule: always receive the oldest pending
delivery. -/
def fifoSched : CrawlState → Nat := fun _ => 0

/-- The crawl of the fixture graph from seed `http://golang.org`. -/
def testCrawl : Option CrawlState :=
  crawlDomain "http://golang.org" testTable fifoSched 20

/-- The keys of a finished crawl's sitemap (empty when the crawl did not
finish). -/
def crawlKeys (o : Option CrawlState) : List String :=
  (o.map fun st => st.sitemap.map Prod.fst).getD []

/-- The sitemap of a finished crawl (empty when the crawl did not
finish). -/
def crawlSitemap (o : Option CrawlState) : List (String × List String) :=
  (o.map fun st => st.sitemap).getD []

/-! ## Properties of the filters -/

theorem if_bool_id (b : Bool) : (if b then true else false) = b := by
  cases b <;> rfl

theorem isSameDomain_eq (domain url : String) :
    isSameDomain domain url = hasPrefixAux domain.data url.data := by
  unfold isSameDomain
  exact if_bool_id _

theorem hasPrefixAux_iff : ∀ p s : List Char,
    hasPrefixAux p s = true ↔ ∃ t, s = p ++ t := by
  intro p
  induction p with
  | nil =>
    intro s
    simp [hasPrefixAux]
  | cons a p ih =>
    intro s
    match s with
    | [] => simp [hasPrefixAux]
    | b :: s' =>
      rw [show hasPrefixAux (a :: p) (b :: s') = (a == b && hasPrefixAux p s') from rfl,
        Bool.and_eq_true, beq_iff_eq, ih]
      constructor
      · rintro ⟨rfl, t, rfl⟩
        exact ⟨t, rfl⟩
      · rintro ⟨t, ht⟩
        rw [List.cons_append] at ht
        injection ht with h1 h2
        exact ⟨h1.symm, t, h2⟩

theorem isSameDomain_iff_data (domain url : String) :
    isSameDomain domain url = true ↔ ∃ t, url.data = domain.data ++ t := by
  rw [isSameDomain_eq, hasPrefixAux_iff]

theorem isSameDomain_self (root : String) : isSameDomain root root = true := by
  rw [isSameDomain_iff_data]
  exact ⟨[], by simp⟩

theorem matchExtRev_eq_true_iff : ∀ er rs : List Char,
    matchExtRev er rs = true ↔
      ∃ m c rest, rs = m ++ '.' :: c :: rest ∧ m.map Char.toLower = er ∧
        goSpace c = false := by
  intro er
  induction er with
  | nil =>
    intro rs
    have hR : (∃ m c rest, rs = m ++ '.' :: c :: rest ∧
          m.map Char.toLower = ([] : List Char) ∧ goSpace c = false) ↔
        ∃ c rest, rs = '.' :: c :: rest ∧ goSpace c = false := by
      constructor
      · rintro ⟨m, c, rest, hrs, hm, hc⟩
        rw [List.map_eq_nil_iff] at hm
        subst hm
        exact ⟨c, rest, by simpa using hrs, hc⟩
      · rintro ⟨c, rest, hrs, hc⟩
        exact ⟨[], c, rest, by simpa using hrs, rfl, hc⟩
    rw [hR]
    match rs with
    | [] => simp [matchExtRev]
    | [d] => simp [matchExtRev]
    | d :: c :: rest' =>
      rw [show matchExtRev [] (d :: c :: rest') = (d == '.' && !goSpace c) from rfl,
        Bool.and_eq_true, beq_iff_eq]
      constructor
      · rintro ⟨rfl, hc⟩
        exact ⟨c, rest', rfl, by simpa using hc⟩
      · rintro ⟨c', rest'', heq, hc'⟩
        rw [List.cons.injEq, List.cons.injEq] at heq
        obtain ⟨h1, h2, _⟩ := heq
        subst h1
        subst h2
        exact ⟨rfl, by simpa using hc'⟩
  | cons e es ih =>
    intro rs
    match rs with
    | [] =>
      rw [show matchExtRev (e :: es) [] = false from rfl]
      constructor
      · intro h
        exact absurd h (by simp)
      · rintro ⟨m, c, rest, hrs, hm, hc⟩
        have := congrArg List.length hrs
        simp at this
        omega
    | r :: rs' =>
      rw [show matchExtRev (e :: es) (r :: rs') = (r.toLower == e && matchExtRev es rs') from rfl,
        Bool.and_eq_true, beq_iff_eq, ih]
      constructor
      · rintro ⟨hr, m, c, rest, hrs, hm, hc⟩
        refine ⟨r :: m, c, rest, by rw [hrs]; rfl, ?_, hc⟩
        rw [List.map_cons, hr, hm]
      · rintro ⟨m, c, rest, hrs, hm, hc⟩
        match m with
        | [] => simp at hm
        | m0 :: m' =>
          rw [List.map_cons, List.cons.injEq] at hm
          obtain ⟨hm0, hm'⟩ := hm
          rw [List.cons_append, List.cons.injEq] at hrs
          obtain ⟨hr0, hrs'⟩ := hrs
          subst hr0
          exact ⟨hm0, m', c, rest, hrs', hm', hc⟩

theorem isImageLink_eq_true_iff (url : String) :
    isImageLink url = true ↔ EndsInImageExtAmended url := by
  unfold isImageLink EndsInImageExtAmended
  rw [List.any_eq_true]
  constructor
  · rintro ⟨ext, hext, hm⟩
    rw [matchExtRev_eq_true_iff] at hm
    obtain ⟨m, c, rest, hrs, hmap, hc⟩ := hm
    refine ⟨ext, hext, rest.reverse, c, m.reverse, ?_, ?_, hc⟩
    · have h := congrArg List.reverse hrs
      rw [List.reverse_reverse] at h
      rw [h]
      simp
    · have h := congrArg List.reverse hmap
      rw [← List.map_reverse, List.reverse_reverse] at h
      exact h
  · rintro ⟨ext, hext, pre, c, suf, hdata, hmap, hc⟩
    refine ⟨ext, hext, ?_⟩
    rw [matchExtRev_eq_true_iff]
    refine ⟨suf.reverse, c, pre.reverse, ?_, ?_, hc⟩
    · rw [hdata]
      simp
    · rw [List.map_reverse, hmap]

/-! ## Scheduler invariants -/

/-- URLs of the universe not yet marked visited. -/
def unvisitedCount (root : String) (table : List (String × List String))
    (st : CrawlState) : Nat :=
  ((urlUniverse root table).dedup.filter fun u => !(decide (u ∈ st.visited))).length

/-- Termination measure: one receive remains for every pending delivery,
and every future spawn both visits a fresh universe URL and enqueues one
more delivery, so this quantity drops by exactly one per loop
iteration. -/
def stMeasure (root : String) (table : List (String × List String))
    (st : CrawlState) : Nat :=
  unvisitedCount root table st + st.pending.length

/-- The part of the scheduler invariant that also holds in the middle of
processing one received link list. -/
def MidInv (root : String) (table : List (String × List String))
    (s : CrawlState) : Prop :=
  s.visited.Nodup ∧
  (∀ u ∈ s.visited, u ∈ urlUniverse root table) ∧
  (∀ l ∈ s.pending, ∀ u ∈ l, u ∈ urlUniverse root table) ∧
  s.sitemap.map Prod.fst = s.visited ∧
  (∀ p ∈ s.sitemap, p.2 = getLinks table p.1) ∧
  s.spawned = s.visited.length ∧
  (∀ u ∈ s.visited, isImageLink u = false ∧ isSameDomain root u = true)

/-- The scheduler invariant at the head of the loop: additionally, the
loop counter equals the number of pending deliveries, and the closed
accounting `n + received = spawned + 1` holds. -/
def Inv (root : String) (table : List (String × List String))
    (st : CrawlState) : Prop :=
  MidInv root table st ∧ st.n = st.pending.length ∧
  st.n + st.received = st.spawned + 1

theorem fetcherGet_some_mem :
    ∀ (table : List (String × List String)) (url : String) (l : List String),
    fetcherGet table url = some l → l ∈ table.map Prod.snd := by
  intro table
  induction table with
  | nil =>
    intro url l h
    simp [fetcherGet, List.lookup] at h
  | cons p t ih =>
    intro url l h
    obtain ⟨k, v⟩ := p
    rw [show fetcherGet ((k, v) :: t) url
        = (if (url == k) = true then some v else fetcherGet t url) from by
      simp only [fetcherGet, List.lookup]
      cases url == k <;> simp] at h
    by_cases hk : (url == k) = true
    · rw [if_pos hk] at h
      cases h
      exact List.mem_cons_self _ _
    · rw [if_neg hk] at h
      exact List.mem_cons_of_mem _ (ih url l h)

theorem getLinks_mem_universe (root : String)
    (table : List (String × List String)) (link u : String)
    (hu : u ∈ getLinks table link) : u ∈ urlUniverse root table := by
  unfold getLinks at hu
  cases hget : fetcherGet table link with
  | none => rw [hget] at hu; cases hu
  | some l =>
    rw [hget] at hu
    have hl := fetcherGet_some_mem table link l hget
    unfold urlUniverse
    exact List.mem_cons_of_mem _ (List.mem_flatten.mpr ⟨l, hl, hu⟩)

theorem getLinks_none (table : List (String × List String)) (u : String)
    (hfail : fetcherGet table u = none) : getLinks table u = [] := by
  unfold getLinks
  rw [hfail]

/-- Marking one fresh universe URL visited shrinks the unvisited count of
a duplicate-free list by exactly one. -/
theorem length_filter_cons_visited {a : String} :
    ∀ (l vis : List String), l.Nodup → a ∈ l → a ∉ vis →
    (l.filter fun u => !(decide (u ∈ vis))).length =
      (l.filter fun u => !(decide (u ∈ a :: vis))).length + 1 := by
  intro l
  induction l with
  | nil =>
    intro vis _ ha _
    exact absurd ha (List.not_mem_nil a)
  | cons b l ih =>
    intro vis hnd hab hav
    rw [List.nodup_cons] at hnd
    obtain ⟨hbl, hndl⟩ := hnd
    rcases List.mem_cons.mp hab with hba | hal
    · subst hba
      rw [List.filter_cons, List.filter_cons]
      have h1 : (!(decide (a ∈ vis))) = true := by simp [hav]
      have h2 : (!(decide (a ∈ a :: vis))) = false := by simp
      rw [h1, h2, if_pos rfl]
      rw [if_neg (by simp)]
      have heq : (l.filter fun u => !(decide (u ∈ vis)))
          = l.filter fun u => !(decide (u ∈ a :: vis)) := by
        apply List.filter_congr
        intro u hu
        have hua : u ≠ a := fun h => hbl (h ▸ hu)
        simp [List.mem_cons, hua]
      rw [List.length_cons, heq]
    · have hba : b ≠ a := fun h => hbl (h ▸ hal)
      rw [List.filter_cons, List.filter_cons]
      have heq : (!(decide (b ∈ a :: vis))) = (!(decide (b ∈ vis))) := by
        simp [List.mem_cons, hba]
      rw [heq]
      cases hb : (!(decide (b ∈ vis))) with
      | false =>
        rw [if_neg (by simp [hb]), if_neg (by simp [hb])]
        exact ih vis hndl hal hav
      | true =>
        rw [if_pos rfl, if_pos rfl, List.length_cons, List.length_cons,
          ih vis hndl hal hav]

theorem processLink_facts (root : String) (table : List (String × List String))
    (s : CrawlState) (link : String)
    (hmid : MidInv root table s) (hlink : link ∈ urlUniverse root table) :
    MidInv root table (processLink root table s link) ∧
    (processLink root table s link).n + s.pending.length
      = s.n + (processLink root table s link).pending.length ∧
    (processLink root table s link).n + s.spawned
      = s.n + (processLink root table s link).spawned ∧
    (processLink root table s link).received = s.received ∧
    unvisitedCount root table (processLink root table s link)
        + (processLink root table s link).n
      = unvisitedCount root table s + s.n ∧
    (∀ u ∈ s.visited, u ∈ (processLink root table s link).visited) ∧
    (∀ p ∈ s.sitemap, p ∈ (processLink root table s link).sitemap) := by
  obtain ⟨hnd, hvu, hpu, hkeys, hvals, hsp, hfil⟩ := hmid
  unfold processLink
  cases he : eligible root s.visited link with
  | false =>
    rw [if_neg (by simp [he])]
    exact ⟨⟨hnd, hvu, hpu, hkeys, hvals, hsp, hfil⟩, rfl, rfl, rfl, rfl,
      fun u hu => hu, fun p hp => hp⟩
  | true =>
    rw [if_pos rfl]
    dsimp only [unvisitedCount]
    have he' := he
    unfold eligible at he'
    rw [Bool.and_eq_true, Bool.and_eq_true] at he'
    obtain ⟨⟨hnv, himg⟩, hdom⟩ := he'
    have hnotvis : link ∉ s.visited := by simpa using hnv
    have himg' : isImageLink link = false := by simpa using himg
    refine ⟨⟨?_, ?_, ?_, ?_, ?_, ?_, ?_⟩, ?_, ?_, rfl, ?_, ?_, ?_⟩
    · exact List.nodup_cons.mpr ⟨hnotvis, hnd⟩
    · intro u hu
      rcases List.mem_cons.mp hu with rfl | hu'
      · exact hlink
      · exact hvu u hu'
    · intro l hl u hu
      rcases List.mem_append.mp hl with hl' | hl'
      · exact hpu l hl' u hu
      · rw [List.mem_singleton] at hl'
        subst hl'
        exact getLinks_mem_universe root table link u hu
    · rw [List.map_cons, hkeys]
    · intro p hp
      rcases List.mem_cons.mp hp with rfl | hp'
      · rfl
      · exact hvals p hp'
    · rw [List.length_cons, hsp]
    · intro u hu
      rcases List.mem_cons.mp hu with rfl | hu'
      · exact ⟨himg', hdom⟩
      · exact hfil u hu'
    · rw [List.length_append, List.length_singleton]
      omega
    · omega
    · have hcount := length_filter_cons_visited
        ((urlUniverse root table).dedup) s.visited
        (List.nodup_dedup _) (List.mem_dedup.mpr hlink) hnotvis
      omega
    · intro u hu
      exact List.mem_cons_of_mem _ hu
    · intro p hp
      exact List.mem_cons_of_mem _ hp

theorem processLinks_facts (root : String) (table : List (String × List String)) :
    ∀ (links : List String) (s : CrawlState),
    MidInv root table s → (∀ u ∈ links, u ∈ urlUniverse root table) →
    MidInv root table (processLinks root table s links) ∧
    (processLinks root table s links).n + s.pending.length
      = s.n + (processLinks root table s links).pending.length ∧
    (processLinks root table s links).n + s.spawned
      = s.n + (processLinks root table s links).spawned ∧
    (processLinks root table s links).received = s.received ∧
    unvisitedCount root table (processLinks root table s links)
        + (processLinks root table s links).n
      = unvisitedCount root table s + s.n ∧
    (∀ u ∈ s.visited, u ∈ (processLinks root table s links).visited) ∧
    (∀ p ∈ s.sitemap, p ∈ (processLinks root table s links).sitemap) := by
  intro links
  induction links with
  | nil =>
    intro s hmid _
    exact ⟨hmid, rfl, rfl, rfl, rfl, fun u hu => hu, fun p hp => hp⟩
  | cons a links ih =>
    intro s hmid hlk
    have h1 := processLink_facts root table s a hmid (hlk a (List.mem_cons_self a links))
    obtain ⟨hmid1, e1, e2, e3, e4, m1, m2⟩ := h1
    have h2 := ih (processLink root table s a) hmid1
      (fun u hu => hlk u (List.mem_cons_of_mem a hu))
    obtain ⟨hmid2, f1, f2, f3, f4, n1, n2⟩ := h2
    have hfold : processLinks root table s (a :: links)
        = processLinks root table (processLink root table s a) links := rfl
    rw [hfold]
    exact ⟨hmid2, by omega, by omega, by omega, by omega,
      fun u hu => n1 u (m1 u hu), fun p hp => n2 p (m2 p hp)⟩

theorem finishIteration_visited (s : CrawlState) :
    (finishIteration s).visited = s.visited := rfl

theorem finishIteration_sitemap (s : CrawlState) :
    (finishIteration s).sitemap = s.sitemap := rfl

theorem finishIteration_pending (s : CrawlState) :
    (finishIteration s).pending = s.pending := rfl

theorem finishIteration_n (s : CrawlState) :
    (finishIteration s).n = s.n - 1 := rfl

theorem finishIteration_received (s : CrawlState) :
    (finishIteration s).received = s.received := rfl

theorem finishIteration_spawned (s : CrawlState) :
    (finishIteration s).spawned = s.spawned := rfl

theorem unvisitedCount_finishIteration (root : String)
    (table : List (String × List String)) (s : CrawlState) :
    unvisitedCount root table (finishIteration s)
      = unvisitedCount root table s := rfl

theorem receiveProcess_facts (root : String) (table : List (String × List String))
    (sched : CrawlState → Nat) (st : CrawlState)
    (hInv : Inv root table st) (hn : st.n ≠ 0) :
    Inv root table (receiveProcess root table sched st) ∧
    stMeasure root table (receiveProcess root table sched st) + 1
      = stMeasure root table st ∧
    (∀ u ∈ st.visited, u ∈ (receiveProcess root table sched st).visited) ∧
    (∀ p ∈ st.sitemap, p ∈ (receiveProcess root table sched st).sitemap) ∧
    (receiveProcess root table sched st).received = st.received + 1 := by
  obtain ⟨⟨hnd, hvu, hpu, hkeys, hvals, hsp, hfil⟩, hnp, hacc⟩ := hInv
  have hplen : st.pending.length ≠ 0 := by omega
  have hilt : sched st % st.pending.length < st.pending.length :=
    Nat.mod_lt _ (Nat.pos_of_ne_zero hplen)
  have hlmem : st.pending.getD (sched st % st.pending.length) [] ∈ st.pending := by
    rw [List.getD_eq_getElem?_getD, List.getElem?_eq_getElem hilt]
    exact List.getElem_mem hilt
  have hmid1 : MidInv root table
      { st with pending := st.pending.eraseIdx (sched st % st.pending.length),
                received := st.received + 1 } :=
    ⟨hnd, hvu, fun l hl => hpu l (List.mem_of_mem_eraseIdx hl), hkeys, hvals,
      hsp, hfil⟩
  obtain ⟨hmid2, f1, f2, f3, f4, n1, n2⟩ := processLinks_facts root table
    (st.pending.getD (sched st % st.pending.length) [])
    { st with pending := st.pending.eraseIdx (sched st % st.pending.length),
              received := st.received + 1 }
    hmid1 (hpu _ hlmem)
  dsimp only at f1 f2 f3 f4 n1 n2
  have hlen : (st.pending.eraseIdx (sched st % st.pending.length)).length
      = st.pending.length - 1 := List.length_eraseIdx_of_lt hilt
  rw [hlen] at f1
  have huv1 : unvisitedCount root table
      { st with pending := st.pending.eraseIdx (sched st % st.pending.length),
                received := st.received + 1 }
      = unvisitedCount root table st := rfl
  rw [huv1] at f4
  unfold receiveProcess
  refine ⟨⟨hmid2, ?_, ?_⟩, ?_, ?_, ?_, ?_⟩
  · rw [finishIteration_n, finishIteration_pending]
    omega
  · rw [finishIteration_n, finishIteration_received, finishIteration_spawned]
    omega
  · unfold stMeasure
    rw [finishIteration_pending, unvisitedCount_finishIteration]
    omega
  · intro u hu
    rw [finishIteration_visited]
    exact n1 u hu
  · intro p hp
    rw [finishIteration_sitemap]
    exact n2 p hp
  · rw [finishIteration_received]
    exact f3

theorem crawlLoopAux_some_inv (root : String) (table : List (String × List String))
    (sched : CrawlState → Nat) :
    ∀ (fuel : Nat) (st st' : CrawlState), Inv root table st →
    crawlLoopAux root table sched fuel st = some st' →
    Inv root table st' ∧ st'.n = 0 ∧
    (∀ u ∈ st.visited, u ∈ st'.visited) ∧
    (∀ p ∈ st.sitemap, p ∈ st'.sitemap) := by
  intro fuel
  induction fuel with
  | zero =>
    intro st st' hInv h
    rw [crawlLoopAux] at h
    by_cases hn : st.n = 0
    · rw [if_pos hn] at h
      cases h
      exact ⟨hInv, hn, fun u hu => hu, fun p hp => hp⟩
    · rw [if_neg hn] at h
      cases h
  | succ fuel ih =>
    intro st st' hInv h
    rw [crawlLoopAux] at h
    by_cases hn : st.n = 0
    · rw [if_pos hn] at h
      cases h
      exact ⟨hInv, hn, fun u hu => hu, fun p hp => hp⟩
    · rw [if_neg hn] at h
      have hne : ¬(st.pending.isEmpty = true) := by
        intro hpe
        rw [List.isEmpty_eq_true] at hpe
        obtain ⟨_, hnp, _⟩ := hInv
        rw [hpe] at hnp
        exact hn (by simpa using hnp)
      rw [if_neg hne] at h
      obtain ⟨hInv1, _, hm1, hm2, _⟩ :=
        receiveProcess_facts root table sched st hInv hn
      obtain ⟨hInv', hn', hm1', hm2'⟩ := ih _ st' hInv1 h
      exact ⟨hInv', hn', fun u hu => hm1' u (hm1 u hu),
        fun p hp => hm2' p (hm2 p hp)⟩

theorem crawlLoopAux_terminates (root : String) (table : List (String × List String))
    (sched : CrawlState → Nat) :
    ∀ (fuel : Nat) (st : CrawlState), Inv root table st →
    stMeasure root table st ≤ fuel →
    (crawlLoopAux root table sched fuel st).isSome = true := by
  intro fuel
  induction fuel with
  | zero =>
    intro st hInv hm
    obtain ⟨_, hnp, _⟩ := hInv
    have h0 : st.n = 0 := by
      unfold stMeasure at hm
      omega
    rw [crawlLoopAux, if_pos h0]
    rfl
  | succ fuel ih =>
    intro st hInv hm
    rw [crawlLoopAux]
    by_cases hn : st.n = 0
    · rw [if_pos hn]
      rfl
    · rw [if_neg hn]
      have hne : ¬(st.pending.isEmpty = true) := by
        intro hpe
        rw [List.isEmpty_eq_true] at hpe
        obtain ⟨_, hnp, _⟩ := hInv
        rw [hpe] at hnp
        exact hn (by simpa using hnp)
      rw [if_neg hne]
      obtain ⟨hInv1, hmeas, _, _, _⟩ :=
        receiveProcess_facts root table sched st hInv hn
      exact ih _ hInv1 (by omega)

theorem inv_init (root : String) (table : List (String × List String)) :
    Inv root table (initState root) := by
  refine ⟨⟨List.nodup_nil, ?_, ?_, rfl, ?_, rfl, ?_⟩, rfl, rfl⟩
  · intro u hu
    exact absurd hu (List.not_mem_nil u)
  · intro l hl u hu
    rw [show (initState root).pending = [[root]] from rfl,
      List.mem_singleton] at hl
    subst hl
    rw [List.mem_singleton] at hu
    subst hu
    exact List.mem_cons_self _ _
  · intro p hp
    exact absurd hp (List.not_mem_nil p)
  · intro u hu
    exact absurd hu (List.not_mem_nil u)

theorem measure_init_le (root : String) (table : List (String × List String)) :
    stMeasure root table (initState root) ≤ fuelBound root table := by
  have h1 : ((urlUniverse root table).dedup.filter
        fun u => !(decide (u ∈ (initState root).visited))).length
      ≤ (urlUniverse root table).dedup.length := List.length_filter_le _ _
  have h2 : (urlUniverse root table).dedup.length
      ≤ (urlUniverse root table).length :=
    (List.dedup_sublist _).length_le
  unfold stMeasure unvisitedCount fuelBound
  dsimp only [initState]
  dsimp only [initState] at h1
  simp only [List.length_cons, List.length_nil]
  omega

theorem crawlLoopAux_done (root : String) (table : List (String × List String))
    (sched : CrawlState → Nat) (fuel : Nat) (st : CrawlState) (h0 : st.n = 0) :
    crawlLoopAux root table sched fuel st = some st := by
  cases fuel <;> rw [crawlLoopAux, if_pos h0]

theorem crawlLoop_first_step (root : String) (table : List (String × List String))
    (sched : CrawlState → Nat) (fuel : Nat) (st : CrawlState)
    (h : crawlDomain root table sched fuel = some st) :
    ∃ fuel', fuel = fuel' + 1 ∧
      crawlLoopAux root table sched fuel'
        (receiveProcess root table sched (initState root)) = some st := by
  cases fuel with
  | zero =>
    rw [crawlDomain, crawlLoopAux, if_neg (by simp [initState])] at h
    cases h
  | succ fuel' =>
    rw [crawlDomain, crawlLoopAux, if_neg (by simp [initState]),
      if_neg (by simp [initState])] at h
    exact ⟨fuel', rfl, h⟩

theorem receiveProcess_init_image (root : String)
    (table : List (String × List String)) (sched : CrawlState → Nat)
    (himg : isImageLink root = true) :
    receiveProcess root table sched (initState root)
      = { visited := [], sitemap := [], pending := [], n := 0, received := 1,
          spawned := 0 } := by
  simp [receiveProcess, initState, finishIteration, processLinks, processLink,
    eligible, himg, Nat.mod_one]

theorem receiveProcess_init_noimage (root : String)
    (table : List (String × List String)) (sched : CrawlState → Nat)
    (himg : isImageLink root = false) :
    receiveProcess root table sched (initState root)
      = { visited := [root], sitemap := [(root, getLinks table root)],
          pending := [getLinks table root], n := 1, received := 1,
          spawned := 1 } := by
  simp [receiveProcess, initState, finishIteration, processLinks, processLink,
    eligible, himg, isSameDomain_self, Nat.mod_one]

/-! ## The claims -/

/-- Claim C1: for every finite link graph presented by the fetcher
(self-cycles and mutual cycles included) and every delivery schedule, the
crawl terminates: starting from the seed state with `n = 1`, within
`fuelBound` iterations the loop counter — decremented once per received
link list, incremented once per spawned worker — reaches `0`, the exit
condition, with no delivery left pending and every spawned task's result
received (`received = spawned + 1`, the seed delivery included). -/
theorem crawl_terminates (root : String) (table : List (String × List String))
    (sched : CrawlState → Nat) :
    ∃ st, crawlDomain root table sched (fuelBound root table) = some st ∧
      st.n = 0 ∧ st.pending = [] ∧ st.received = st.spawned + 1 := by
  have h := crawlLoopAux_terminates root table sched (fuelBound root table)
    (initState root) (inv_init root table) (measure_init_le root table)
  obtain ⟨st, hst⟩ := Option.isSome_iff_exists.mp h
  obtain ⟨⟨_, hnp, hacc⟩, hn0, _, _⟩ :=
    crawlLoopAux_some_inv root table sched (fuelBound root table) _ st
      (inv_init root table) hst
  refine ⟨st, hst, hn0, ?_, by omega⟩
  exact List.length_eq_zero.mp (by omega)

/-- Claim C2: in every completed crawl, every key of the sitemap passed
the eligibility filter — it is not an image URL and it is within the
seed's domain; ineligible URLs can therefore appear only inside value
lists. -/
theorem sitemap_keys_filtered (root : String)
    (table : List (String × List String)) (sched : CrawlState → Nat)
    (fuel : Nat) (st : CrawlState) (p : String × List String)
    (h : crawlDomain root table sched fuel = some st) (hp : p ∈ st.sitemap) :
    isImageLink p.1 = false ∧ isSameDomain root p.1 = true := by
  obtain ⟨⟨_, _, _, hkeys, _, _, hfil⟩, _, _⟩ :=
    (crawlLoopAux_some_inv root table sched fuel _ st (inv_init root table) h).1
  apply hfil
  rw [← hkeys]
  exact List.mem_map_of_mem Prod.fst hp

theorem sitemap_keys_filtered_witness :
    crawlDomain "a" [] fifoSched 2
        = some ⟨["a"], [("a", [])], [], 0, 2, 1⟩ ∧
    ("a", ([] : List String))
        ∈ (⟨["a"], [("a", [])], [], 0, 2, 1⟩ : CrawlState).sitemap ∧
    (isImageLink "a" = false ∧ isSameDomain "a" "a" = true) :=
  ⟨by decide, by decide,
    sitemap_keys_filtered "a" [] fifoSched 2
      ⟨["a"], [("a", [])], [], 0, 2, 1⟩ ("a", []) (by decide) (by decide)⟩

/-- Claim C3: in every completed crawl, each URL was marked visited at
most once and spawned exactly one worker (`spawned` counts one per
visited URL, the visited list and the sitemap's key list are
duplicate-free), and each sitemap value is the single link list its
worker computed for its key. -/
theorem visited_at_most_once (root : String)
    (table : List (String × List String)) (sched : CrawlState → Nat)
    (fuel : Nat) (st : CrawlState) (p : String × List String)
    (h : crawlDomain root table sched fuel = some st) (hp : p ∈ st.sitemap) :
    st.visited.Nodup ∧ (st.sitemap.map Prod.fst).Nodup ∧
    st.spawned = st.visited.length ∧ p.2 = getLinks table p.1 := by
  obtain ⟨⟨hnd, _, _, hkeys, hvals, hsp, _⟩, _, _⟩ :=
    (crawlLoopAux_some_inv root table sched fuel _ st (inv_init root table) h).1
  refine ⟨hnd, ?_, hsp, hvals p hp⟩
  rw [hkeys]
  exact hnd

theorem visited_at_most_once_witness :
    crawlDomain "a" [] fifoSched 2
        = some ⟨["a"], [("a", [])], [], 0, 2, 1⟩ ∧
    ("a", ([] : List String))
        ∈ (⟨["a"], [("a", [])], [], 0, 2, 1⟩ : CrawlState).sitemap ∧
    ((⟨["a"], [("a", [])], [], 0, 2, 1⟩ : CrawlState).visited.Nodup ∧
      ((⟨["a"], [("a", [])], [], 0, 2, 1⟩ : CrawlState).sitemap.map
        Prod.fst).Nodup ∧
      (⟨["a"], [("a", [])], [], 0, 2, 1⟩ : CrawlState).spawned
        = (⟨["a"], [("a", [])], [], 0, 2, 1⟩ : CrawlState).visited.length ∧
      ([] : List String) = getLinks [] "a") :=
  ⟨by decide, by decide,
    visited_at_most_once "a" [] fifoSched 2
      ⟨["a"], [("a", [])], [], 0, 2, 1⟩ ("a", []) (by decide) (by decide)⟩

/-- Claim C4: in every completed crawl the sitemap has exactly one entry
per URL ever marked visited: the entry count equals the visited count,
and a URL is a sitemap key exactly when it was marked visited. -/
theorem sitemap_size_eq_visited (root : String)
    (table : List (String × List String)) (sched : CrawlState → Nat)
    (fuel : Nat) (st : CrawlState) (u : String)
    (h : crawlDomain root table sched fuel = some st) :
    st.sitemap.length = st.visited.length ∧
    (u ∈ st.sitemap.map Prod.fst ↔ u ∈ st.visited) := by
  obtain ⟨⟨_, _, _, hkeys, _, _, _⟩, _, _⟩ :=
    (crawlLoopAux_some_inv root table sched fuel _ st (inv_init root table) h).1
  constructor
  · rw [← hkeys, List.length_map]
  · rw [hkeys]

theorem sitemap_size_eq_visited_witness :
    crawlDomain "a" [] fifoSched 2
        = some ⟨["a"], [("a", [])], [], 0, 2, 1⟩ ∧
    ((⟨["a"], [("a", [])], [], 0, 2, 1⟩ : CrawlState).sitemap.length
        = (⟨["a"], [("a", [])], [], 0, 2, 1⟩ : CrawlState).visited.length ∧
      ("a" ∈ (⟨["a"], [("a", [])], [], 0, 2, 1⟩ : CrawlState).sitemap.map
          Prod.fst
        ↔ "a" ∈ (⟨["a"], [("a", [])], [], 0, 2, 1⟩ : CrawlState).visited)) :=
  ⟨by decide, sitemap_size_eq_visited "a" [] fifoSched 2
    ⟨["a"], [("a", [])], [], 0, 2, 1⟩ "a" (by decide)⟩

/-- Claim C5: `isSameDomain(root, url)` is exactly the literal
string-prefix test; in particular `http://golang.org2/x` counts as
in-domain for root `http://golang.org`, while the same host reached over
`https` counts as external when the root uses `http`. -/
theorem isSameDomain_spec (root url : String) :
    (isSameDomain root url = true ↔ ∃ t, url = root ++ t) ∧
    isSameDomain "http://golang.org" "http://golang.org2/x" = true ∧
    isSameDomain "http://golang.org" "https://golang.org/x" = false := by
  refine ⟨?_, by decide, by decide⟩
  rw [isSameDomain_iff_data]
  constructor
  · rintro ⟨t, ht⟩
    refine ⟨⟨t⟩, ?_⟩
    apply String.ext
    rw [String.data_append]
    exact ht
  · rintro ⟨t, rfl⟩
    exact ⟨t.data, by rw [String.data_append]⟩

/-- What claim C6 states for `isImageLink` — the URL ends,
case-insensitively, in one of the image extensions — is falsified by the
URL `".jpg"`: the regular expression additionally demands a non-whitespace
character before the dot, so `isImageLink ".jpg"` is `false`. -/
theorem isImageLink_claim_counterexample :
    EndsInImageExt ".jpg" ∧ isImageLink ".jpg" = false :=
  ⟨⟨['j', 'p', 'g'], by decide, [], ['j', 'p', 'g'], by decide, by decide⟩,
    by decide⟩

/-- Claim C6, amended: `isImageLink url` is true exactly when `url` ends,
case-insensitively, in a dot followed by one of jpg, png, gif, bmp, tiff,
with at least one non-whitespace character immediately before that
dot. -/
theorem isImageLink_spec_amended (url : String) :
    isImageLink url = true ↔ EndsInImageExtAmended url :=
  isImageLink_eq_true_iff url

/-- Claim C7: a URL whose fetch fails (no entry in the fetch table) gets
the empty link list from `getLinks` instead of an error; if the crawl
visited it, it still owns a sitemap entry (with that empty list), and the
crawl itself still runs to completion. -/
theorem fetch_failure_degraded (table : List (String × List String))
    (u root : String) (sched : CrawlState → Nat) (fuel : Nat)
    (st : CrawlState) (hfail : fetcherGet table u = none)
    (h : crawlDomain root table sched fuel = some st)
    (hu : u ∈ st.visited) :
    getLinks table u = [] ∧ (u, ([] : List String)) ∈ st.sitemap ∧
    (crawlDomain root table sched (fuelBound root table)).isSome = true := by
  have hgl := getLinks_none table u hfail
  refine ⟨hgl, ?_, crawlLoopAux_terminates root table sched _ _
    (inv_init root table) (measure_init_le root table)⟩
  obtain ⟨⟨_, _, _, hkeys, hvals, _, _⟩, _, _⟩ :=
    (crawlLoopAux_some_inv root table sched fuel _ st (inv_init root table) h).1
  rw [← hkeys] at hu
  obtain ⟨q, hqmem, hqu⟩ := List.mem_map.mp hu
  have hq2 := hvals q hqmem
  obtain ⟨q1, q2⟩ := q
  have hq1 : q1 = u := hqu
  subst hq1
  have hq2' : q2 = [] := by
    rw [show q2 = getLinks table q1 from hq2, hgl]
  subst hq2'
  exact hqmem

theorem fetch_failure_degraded_witness :
    fetcherGet [("a", ["ab"])] "ab" = none ∧
    crawlDomain "a" [("a", ["ab"])] fifoSched 3
        = some ⟨["ab", "a"], [("ab", []), ("a", ["ab"])], [], 0, 3, 2⟩ ∧
    "ab" ∈ (⟨["ab", "a"], [("ab", []), ("a", ["ab"])], [], 0, 3, 2⟩
        : CrawlState).visited ∧
    (getLinks [("a", ["ab"])] "ab" = [] ∧
      ("ab", ([] : List String))
        ∈ (⟨["ab", "a"], [("ab", []), ("a", ["ab"])], [], 0, 3, 2⟩
            : CrawlState).sitemap ∧
      (crawlDomain "a" [("a", ["ab"])] fifoSched
          (fuelBound "a" [("a", ["ab"])])).isSome = true) :=
  ⟨by decide, by decide, by decide,
    fetch_failure_degraded [("a", ["ab"])] "ab" "a" fifoSched 3
      ⟨["ab", "a"], [("ab", []), ("a", ["ab"])], [], 0, 3, 2⟩
      (by decide) (by decide) (by decide)⟩

/-- Claim C9: crawling the fixture graph of `crawler_test.go` from seed
`http://golang.org` yields a sitemap whose keys are exactly the four
in-domain pages; the external URLs and the image URL are not keys, and
each entry keeps the full link list supplied by the fetch table for that
page. -/
theorem fixture_crawl_result :
    testCrawl.isSome = true ∧
    crawlKeys testCrawl =
      ["http://golang.org/testing.html", "http://golang.org/test2.html",
       "http://golang.org/test.html", "http://golang.org"] ∧
    "http://goweeklynews.com" ∉ crawlKeys testCrawl ∧
    "http://linkedin.com/golang" ∉ crawlKeys testCrawl ∧
    "http://golang.org/images/gopher.jpg" ∉ crawlKeys testCrawl ∧
    ((crawlSitemap testCrawl).all fun p =>
      p.2.length == ((fetcherGet testTable p.1).getD []).length) = true := by
  decide

/-- Claim C10: the seed passes through the same filters as every other
URL: `isSameDomain root root` always holds (every string is a prefix of
itself), so in a completed crawl the seed is fetched and is a sitemap key
— unless the seed itself is an image URL, in which case nothing is ever
spawned and the sitemap stays empty. -/
theorem seed_filtering (root : String) (table : List (String × List String))
    (sched : CrawlState → Nat) (fuel : Nat) (st : CrawlState)
    (h : crawlDomain root table sched fuel = some st) :
    isSameDomain root root = true ∧
    (if isImageLink root then
      st.sitemap = [] ∧ st.visited = [] ∧ st.spawned = 0
     else root ∈ st.visited ∧ (root, getLinks table root) ∈ st.sitemap) := by
  refine ⟨isSameDomain_self root, ?_⟩
  obtain ⟨fuel', rfl, h'⟩ := crawlLoop_first_step root table sched fuel st h
  cases himg : isImageLink root with
  | true =>
    rw [if_pos rfl]
    rw [receiveProcess_init_image root table sched himg] at h'
    rw [crawlLoopAux_done root table sched fuel' _ rfl] at h'
    cases h'
    exact ⟨rfl, rfl, rfl⟩
  | false =>
    rw [if_neg (by simp)]
    obtain ⟨hInv1, _, _, _, _⟩ := receiveProcess_facts root table sched
      (initState root) (inv_init root table) (by simp [initState])
    rw [receiveProcess_init_noimage root table sched himg] at hInv1 h'
    obtain ⟨_, _, hm1, hm2⟩ :=
      crawlLoopAux_some_inv root table sched fuel' _ st hInv1 h'
    exact ⟨hm1 root (by simp), hm2 (root, getLinks table root) (by simp)⟩

theorem seed_filtering_witness :
    crawlDomain "a" [] fifoSched 2
        = some ⟨["a"], [("a", [])], [], 0, 2, 1⟩ ∧
    (isSameDomain "a" "a" = true ∧
      (if isImageLink "a" then
        (⟨["a"], [("a", [])], [], 0, 2, 1⟩ : CrawlState).sitemap = [] ∧
        (⟨["a"], [("a", [])], [], 0, 2, 1⟩ : CrawlState).visited = [] ∧
        (⟨["a"], [("a", [])], [], 0, 2, 1⟩ : CrawlState).spawned = 0
       else "a" ∈ (⟨["a"], [("a", [])], [], 0, 2, 1⟩ : CrawlState).visited ∧
        ("a", getLinks [] "a")
          ∈ (⟨["a"], [("a", [])], [], 0, 2, 1⟩ : CrawlState).sitemap)) :=
  ⟨by decide, seed_filtering "a" [] fifoSched 2
    ⟨["a"], [("a", [])], [], 0, 2, 1⟩ (by decide)⟩

/-! ## The concurrency limiter (`crawler.go` lines 124 and 165-174)

The buffered channel `counter` of capacity 20 is a counting semaphore:
`counter <- struct{}{}` acquires a slot (it blocks when 20 values are
buffered) and `<-counter` releases one (it blocks when none is buffered).
Each `getLinks` call performs, in order: one acquire, the fetcher call,
one release — the release sits before the error branch, so success and
failure paths share this single shape.  We give the limiter an
interleaving semantics over any number of concurrent `getLinks` workers
and show the number of workers between their acquire and their release
never exceeds the capacity. -/

/-- The capacity of the `counter` channel: `make(chan struct{}, 20)`
(`crawler.go` line 124). -/
def counterCap : Nat := 20

/-- The limiter-relevant events of a worker. -/
inductive WStep where
  | acquire
  | fetchCall
  | release
deriving DecidableEq, Repr

/-- The body of `getLinks` (`crawler.go` lines 165-174) as its sequence
of limiter events: acquire one slot, call the fetcher, release one slot —
unconditionally, on the success and the failure path alike. -/
def getLinksTrace : List WStep :=
  [WStep.acquire, WStep.fetchCall, WStep.release]

/-- A limiter system state: how many slots are currently held (values
buffered in `counter`) and each running worker's remaining events. -/
structure LimState where
  inFlight : Nat
  workers : List (List WStep)
deriving DecidableEq, Repr

/-- Interleaving semantics: any worker may take its next step.  An
acquire blocks unless fewer than `counterCap` slots are held; a release
blocks while no slot is held. -/
inductive LimStep : LimState → LimState → Prop where
  | acquire (f : Nat) (pre post : List (List WStep)) (rest : List WStep) :
      f < counterCap →
      LimStep ⟨f, pre ++ (WStep.acquire :: rest) :: post⟩
        ⟨f + 1, pre ++ rest :: post⟩
  | fetchCall (f : Nat) (pre post : List (List WStep)) (rest : List WStep) :
      LimStep ⟨f, pre ++ (WStep.fetchCall :: rest) :: post⟩
        ⟨f, pre ++ rest :: post⟩
  | release (f : Nat) (pre post : List (List WStep)) (rest : List WStep) :
      0 < f →
      LimStep ⟨f, pre ++ (WStep.release :: rest) :: post⟩
        ⟨f - 1, pre ++ rest :: post⟩

/-- `k` workers each about to run `getLinks`, no slot held. -/
def limInit (k : Nat) : LimState :=
  ⟨0, List.replicate k getLinksTrace⟩

/-- States reachable by interleaving `k` concurrent `getLinks` calls. -/
def LimReachable (k : Nat) (s : LimState) : Prop :=
  Relation.ReflTransGen LimStep (limInit k) s

/-- A worker is mid-fetch — it has acquired its slot and not yet released
it. -/
def midFetch (w : List WStep) : Bool :=
  w == [WStep.fetchCall, WStep.release] || w == [WStep.release]

/-- The states a worker's remaining trace can be in. -/
def limWorkerOk (w : List WStep) : Prop :=
  w = getLinksTrace ∨ w = [WStep.fetchCall, WStep.release] ∨
  w = [WStep.release] ∨ w = []

/-- Limiter invariant: every worker is at one of the four points of
`getLinksTrace`, and the held-slot count is exactly the number of
mid-fetch workers, capped by the capacity. -/
def LimInv (s : LimState) : Prop :=
  (∀ w ∈ s.workers, limWorkerOk w) ∧
  s.inFlight = (s.workers.filter midFetch).length ∧
  s.inFlight ≤ counterCap

theorem limInv_init (k : Nat) : LimInv (limInit k) := by
  refine ⟨?_, ?_, ?_⟩
  · intro w hw
    rw [List.eq_of_mem_replicate hw]
    exact Or.inl rfl
  · rw [show (limInit k).workers = List.replicate k getLinksTrace from rfl,
      List.filter_eq_nil_iff.mpr ?_]
    · rfl
    · intro w hw
      rw [List.eq_of_mem_replicate hw]
      decide
  · exact Nat.zero_le _

theorem limInv_step {s s' : LimState} (hstep : LimStep s s')
    (hInv : LimInv s) : LimInv s' := by
  obtain ⟨hok, hcount, hcap⟩ := hInv
  cases hstep with
  | acquire f pre post rest hf =>
    have hw := hok (WStep.acquire :: rest) (by simp)
    have hrest : rest = [WStep.fetchCall, WStep.release] := by
      rcases hw with h | h | h | h <;> simp [getLinksTrace] at h
      · exact h
    subst hrest
    refine ⟨?_, ?_, ?_⟩
    · intro w hw'
      rw [List.mem_append, List.mem_cons] at hw'
      rcases hw' with h | h | h
      · exact hok w (by simp [h])
      · subst h
        exact Or.inr (Or.inl rfl)
      · exact hok w (by simp [h])
    swap
    · show f + 1 ≤ counterCap
      omega
    · rw [List.filter_append, List.filter_cons] at hcount ⊢
      simp only [List.length_append] at hcount ⊢
      rw [show midFetch (WStep.acquire :: [WStep.fetchCall, WStep.release])
          = false from rfl] at hcount
      rw [show midFetch [WStep.fetchCall, WStep.release] = true from rfl]
      simp only [Bool.false_eq_true, if_neg, reduceIte, List.length_cons]
        at hcount ⊢
      omega
  | fetchCall f pre post rest =>
    have hw := hok (WStep.fetchCall :: rest) (by simp)
    have hrest : rest = [WStep.release] := by
      rcases hw with h | h | h | h <;> simp [getLinksTrace] at h
      · exact h
    subst hrest
    refine ⟨?_, ?_, hcap⟩
    · intro w hw'
      rw [List.mem_append, List.mem_cons] at hw'
      rcases hw' with h | h | h
      · exact hok w (by simp [h])
      · subst h
        exact Or.inr (Or.inr (Or.inl rfl))
      · exact hok w (by simp [h])
    · rw [List.filter_append, List.filter_cons] at hcount ⊢
      simp only [List.length_append] at hcount ⊢
      rw [show midFetch (WStep.fetchCall :: [WStep.release]) = true from rfl]
        at hcount
      rw [show midFetch [WStep.release] = true from rfl]
      simp only [reduceIte, List.length_cons] at hcount ⊢
      omega
  | release f pre post rest hf =>
    have hw := hok (WStep.release :: rest) (by simp)
    have hrest : rest = [] := by
      rcases hw with h | h | h | h <;> simp [getLinksTrace] at h
      · exact h
    subst hrest
    have hcap' : f ≤ counterCap := hcap
    refine ⟨?_, ?_, ?_⟩
    · intro w hw'
      rw [List.mem_append, List.mem_cons] at hw'
      rcases hw' with h | h | h
      · exact hok w (by simp [h])
      · subst h
        exact Or.inr (Or.inr (Or.inr rfl))
      · exact hok w (by simp [h])
    swap
    · show f - 1 ≤ counterCap
      omega
    · rw [List.filter_append, List.filter_cons] at hcount ⊢
      simp only [List.length_append] at hcount ⊢
      rw [show midFetch (WStep.release :: []) = true from rfl] at hcount
      rw [show midFetch ([] : List WStep) = false from rfl]
      simp only [Bool.false_eq_true, if_neg, reduceIte, List.length_cons]
        at hcount ⊢
      omega

theorem limInv_reachable (k : Nat) (s : LimState)
    (h : LimReachable k s) : LimInv s := by
  induction h with
  | refl => exact limInv_init k
  | tail _ hstep ih => exact limInv_step hstep ih

/-- Claim C8: the limiter capacity is fixed at 20; each `getLinks` call
acquires exactly one slot before the fetcher call and releases exactly
one slot afterwards on every exit path (its limiter trace is
acquire-fetch-release); consequently, in every state reachable by
interleaving any number of concurrent `getLinks` calls, the number of
workers mid-fetch equals the number of held slots and never exceeds
20. -/
theorem limiter_bound (k : Nat) (s : LimState) (h : LimReachable k s) :
    counterCap = 20 ∧
    getLinksTrace = [WStep.acquire, WStep.fetchCall, WStep.release] ∧
    s.inFlight = (s.workers.filter midFetch).length ∧
    (s.workers.filter midFetch).length ≤ counterCap := by
  obtain ⟨_, hcount, hcap⟩ := limInv_reachable k s h
  exact ⟨rfl, rfl, hcount, by omega⟩

theorem limiter_bound_witness :
    counterCap = 20 ∧
    getLinksTrace = [WStep.acquire, WStep.fetchCall, WStep.release] ∧
    (limInit 1).inFlight = ((limInit 1).workers.filter midFetch).length ∧
    ((limInit 1).workers.filter midFetch).length ≤ counterCap :=
  limiter_bound 1 (limInit 1) Relation.ReflTransGen.refl

end Crawler
